import Mathlib

/-!
Shallow embedding of the NeuroCLI mediation layer (Go sources
`neurocli.go` and the shell / commit-message helper file) in Lean 4.

Strings are modelled as lists of unicode scalar values (`List Char`).
Wherever the Go code measures or indexes BYTES (`len`, `strings.Index`,
slicing), the model counts the UTF-8 bytes of those characters via
`Char.utf8Size`, which agrees with Go on every valid-UTF-8 string.
-/

/-- Go `unicode.IsSpace`: the unicode White_Space property. -/
def goIsSpace (c : Char) : Bool :=
  c = ' ' || c = '\t' || c = '\n' || c.toNat = 11 || c.toNat = 12 || c = '\r' ||
  c.toNat = 0x85 || c.toNat = 0xA0 || c.toNat = 0x1680 ||
  (0x2000 ≤ c.toNat && c.toNat ≤ 0x200A) ||
  c.toNat = 0x2028 || c.toNat = 0x2029 || c.toNat = 0x202F ||
  c.toNat = 0x205F || c.toNat = 0x3000

/-- Go `strings.TrimSpace`: drop leading and trailing whitespace. -/
def goTrimSpace (s : List Char) : List Char :=
  ((s.dropWhile goIsSpace).reverse.dropWhile goIsSpace).reverse

/-- Accumulator loop for `goFields` (the accumulator holds the current token,
reversed). -/
def goFieldsAux : List Char → List Char → List (List Char)
  | [], acc => if acc.isEmpty then [] else [acc.reverse]
  | c :: rest, acc =>
    if goIsSpace c then
      if acc.isEmpty then goFieldsAux rest []
      else acc.reverse :: goFieldsAux rest []
    else goFieldsAux rest (c :: acc)

/-- Go `strings.Fields`: split around runs of whitespace. -/
def goFields (s : List Char) : List (List Char) := goFieldsAux s []

/-- The first whitespace-delimited token of a string (empty when the string
is empty or all whitespace). -/
def firstToken (s : List Char) : List Char :=
  (s.dropWhile goIsSpace).takeWhile (fun c => !goIsSpace c)

/-- The fixed allowlist of `isValidCommand` (shell helper file). -/
def allowedCommands : List (List Char) :=
  ["ls".toList, "pwd".toList, "echo".toList, "cat".toList, "grep".toList,
   "find".toList, "ps".toList, "top".toList, "df".toList, "du".toList,
   "date".toList, "whoami".toList, "uname".toList]

/-- Go `isValidCommand` (shell helper file): tokenize on whitespace, reject
zero tokens, accept iff the first token equals one of the allowed names. -/
def isValidCommand (cmd : List Char) : Bool :=
  match goFields cmd with
  | [] => false
  | p :: _ => allowedCommands.any (fun a => p = a)

/-- Go `strings.HasPrefix`. -/
def goStartsWith (s pat : List Char) : Bool := pat.isPrefixOf s

/-- Go `strings.TrimPrefix`: drop `pat` from the front when present. -/
def goTrimStart (s pat : List Char) : List Char :=
  if pat.isPrefixOf s then s.drop pat.length else s

/-- Go `strings.HasSuffix`. -/
def goHasSuffix (s pat : List Char) : Bool := pat.isSuffixOf s

/-- Go `strings.TrimSuffix`: drop `pat` from the end when present. -/
def goTrimSuffix (s pat : List Char) : List Char :=
  if pat.isSuffixOf s then s.take (s.length - pat.length) else s

/-- Go `strings.Contains`. -/
def goContains (pat : List Char) : List Char → Bool
  | [] => pat.isEmpty
  | c :: rest => pat.isPrefixOf (c :: rest) || goContains pat rest

/-- Go `strings.TrimLeft` with a cutset of characters. -/
def goTrimLeftCut (s cutset : List Char) : List Char :=
  s.dropWhile (fun c => cutset.contains c)

/-- Go `strings.Split` with a single-character separator. -/
def splitOnChar (sep : Char) : List Char → List (List Char)
  | [] => [[]]
  | c :: rest =>
    if c = sep then [] :: splitOnChar sep rest
    else
      match splitOnChar sep rest with
      | [] => [[c]]
      | l :: ls => (c :: l) :: ls

/-- Go `strings.Split(s, "\n")`. -/
def splitNl (s : List Char) : List (List Char) := splitOnChar '\n' s

/-- Go `strings.Join(ls, "\n")`. -/
def joinNl : List (List Char) → List Char
  | [] => []
  | [l] => l
  | l :: ls => l ++ '\n' :: joinNl ls

/-- UTF-8 byte length of a string, Go `len(s)` on valid UTF-8. -/
def goLen (s : List Char) : Nat := (s.map Char.utf8Size).sum

/-- Byte-based take, Go `s[:n]`. When `n` falls inside a multi-byte
character Go keeps its leading bytes; that fragment is not representable
here and is dropped instead (no settled claim exercises that case). -/
def takeBytes (n : Nat) : List Char → List Char
  | [] => []
  | c :: rest => if c.utf8Size ≤ n then c :: takeBytes (n - c.utf8Size) rest else []

/-- Byte offset (Go `strings.Index(s, ": ")`) of the first occurrence of
the two-character pattern `": "`, or `none` for Go result `-1`. -/
def idxColonSpace : List Char → Option Nat
  | [] => none
  | c :: rest =>
    if c = ':' && rest.head? = some ' ' then some 0
    else (idxColonSpace rest).map (fun i => i + c.utf8Size)

/-- ASCII lowering of one character. Go `strings.ToLower` also maps a few
non-ASCII code points (e.g. U+0130) into ASCII; no claim depends on those,
and the shell built-in names compared against are all ASCII. -/
def charToLower (c : Char) : Char :=
  if 65 ≤ c.toNat && c.toNat ≤ 90 then Char.ofNat (c.toNat + 32) else c

/-- ASCII lowering of a string (Go `strings.ToLower` on the modelled inputs). -/
def goToLower (s : List Char) : List Char := s.map charToLower

/-- ASCII uppercasing of one character (Go `strings.ToUpper` applied to a
one-character string; non-ASCII mappings are identity here, unused by any
settled claim). -/
def charToUpper (c : Char) : Char :=
  if 97 ≤ c.toNat && c.toNat ≤ 122 then Char.ofNat (c.toNat - 32) else c

/-- The backtick character (code point 96). -/
def tickC : Char := Char.ofNat 96

/-- One backtick, the Go literal trimmed from repaired headers. -/
def tick : List Char := [tickC]

/-- The markdown fence marker: three backticks. -/
def fence : List Char := [tickC, tickC, tickC]

/-- Go `strings.Split(s, "```")`: split on non-overlapping fence markers,
scanning left to right. -/
def goSplitFence : List Char → List (List Char)
  | [] => [[]]
  | [c] => [[c]]
  | [c, d] => [[c, d]]
  | c :: d :: e :: rest =>
    if c = tickC && d = tickC && e = tickC then [] :: goSplitFence rest
    else
      match goSplitFence (d :: e :: rest) with
      | [] => [[c]]
      | l :: ls => (c :: l) :: ls

/-- The literal sentinel `Command: ` checked by both dispatch paths. -/
def cmdSentinel : List Char := "Command: ".toList

/-- The `!` character prefixing raw commands. -/
def bang : List Char := "!".toList

/-- Result of one `askAI` call: the response text or a transport error. -/
inductive AIResult where
  | ok (text : List Char) : AIResult
  | err (msg : List Char) : AIResult
deriving DecidableEq

/-- Typed intent derived from a raw AI response (spec ResponseInterpreter;
inlined in `handleShell` in the source). -/
inductive Intent where
  | commandDirective (cmd : List Char) : Intent
  | codeBlocks (segments : List (List Char)) : Intent
  | plainText (text : List Char) : Intent
deriving DecidableEq

/-- The response handling of `handleShell`: an untrimmed `Command: ` check
first, then fence detection, else plain text. -/
def interpretResponse (r : List Char) : Intent :=
  if goStartsWith r cmdSentinel then
    .commandDirective (goTrimSpace (goTrimStart r cmdSentinel))
  else if goContains fence r then .codeBlocks (goSplitFence r)
  else .plainText r

/-- Observable actions of one dispatch step (prints without dispatch
significance are omitted). -/
inductive Effect where
  | execute (cmd : List Char) : Effect
  | safetyError : Effect
  | printText (text : List Char) : Effect
  | builtinRun (name : List Char) : Effect
  | aiError : Effect
  | showHelp : Effect
deriving DecidableEq

/-- The repeated source pattern guarding `executeCommand` in the shell: run
`isValidCommand`, and on failure print the safety error without executing. -/
def gateAndExecute (c : List Char) : List Effect :=
  if isValidCommand c then [.execute c] else [.safetyError]

/-- Outcome of dispatching one interactive input line. -/
structure StepOut where
  effects : List Effect
  append : Option (List Char)
  exits : Bool
deriving DecidableEq

/-- One iteration of the `handleShell` read loop on a delivered input line:
trim, append to history, built-in table (`help`, `exit`, `clear`, `cd`,
matched against the lowercased first field), then the `!` raw-command path,
then the AI-query path. `exits` marks the `handleExit` path, which calls
`os.Exit(0)`. -/
def shellStep (ai : List Char → AIResult) (input : List Char) : StepOut :=
  let t := goTrimSpace input
  if t.isEmpty then ⟨[], none, false⟩
  else
    match goFields t with
    | [] => ⟨[], some t, false⟩
    | p :: _ =>
      let cmd := goToLower p
      if cmd = "help".toList then ⟨[.builtinRun "help".toList], some t, false⟩
      else if cmd = "exit".toList then ⟨[.builtinRun "exit".toList], some t, true⟩
      else if cmd = "clear".toList then ⟨[.builtinRun "clear".toList], some t, false⟩
      else if cmd = "cd".toList then ⟨[.builtinRun "cd".toList], some t, false⟩
      else if goStartsWith t bang then
        gatedStep (goTrimSpace t.tail) t
      else
        match ai t with
        | .err _ => ⟨[.aiError], some t, false⟩
        | .ok resp =>
          match interpretResponse resp with
          | .commandDirective c => gatedStep c t
          | .codeBlocks _ => ⟨[.printText resp], some t, false⟩
          | .plainText _ => ⟨[.printText resp], some t, false⟩
where
  /-- Gate a command through the allowlist and stay in the loop. -/
  gatedStep (c t : List Char) : StepOut := ⟨gateAndExecute c, some t, false⟩

/-- Final state of one interactive session. -/
structure SessionOut where
  history : List (List Char)
  flushed : Bool
deriving DecidableEq

/-- The `handleShell` loop over a list of delivered input lines. Exhausting
the list models `line.Prompt` failing (end of input): `handleShell` returns
and its deferred `saveHistory` writes the history, so `flushed` is true.
The `exit` built-in instead reaches `os.Exit(0)` inside `handleExit`, which
terminates the process without running deferred functions: not flushed. -/
def runShellAux (ai : List Char → AIResult) :
    List (List Char) → List (List Char) → SessionOut
  | [], hist => ⟨hist.reverse, true⟩
  | inp :: rest, hist =>
    let s := shellStep ai inp
    let hist' := match s.append with
      | some t => t :: hist
      | none => hist
    if s.exits then ⟨hist'.reverse, false⟩
    else runShellAux ai rest hist'

/-- Run a whole interactive session from an empty history. -/
def runShell (ai : List Char → AIResult) (inputs : List (List Char)) : SessionOut :=
  runShellAux ai inputs []

/-- Go `strings.Join(args, " ")`. -/
def joinSpace : List (List Char) → List Char
  | [] => []
  | [l] => l
  | l :: ls => l ++ ' ' :: joinSpace ls

/-- The non-interactive root command (`rootCmd.RunE` in `neurocli.go`):
`!`-prefixed first argument and AI-suggested `Command: ` directives are
passed to `executeCommand` directly; the source consults no allowlist on
either path. -/
def rootRun (ai : List Char → AIResult) (args : List (List Char)) : List Effect :=
  match args with
  | [] => [.showHelp]
  | a :: rest =>
    if goStartsWith a bang then
      [.execute (goTrimSpace (goTrimStart a bang))]
    else
      match ai (joinSpace (a :: rest)) with
      | .err _ => [.aiError]
      | .ok resp =>
        if goStartsWith resp cmdSentinel then
          [.execute (goTrimSpace (goTrimStart resp cmdSentinel))]
        else [.printText resp]

/-- The argument vector `executeCommand` (`neurocli.go`) hands to the OS:
the whole command string goes to a shell. -/
def executeCommandArgv (isWindows : Bool) (cmdStr : List Char) : List (List Char) :=
  if isWindows then ["cmd".toList, "/C".toList, cmdStr]
  else ["sh".toList, "-c".toList, cmdStr]

/-- Modelled from the spec: the ProcessExecutor is an external collaborator
that "spawns a child process using the host command shell" (spec section 6).
A POSIX shell given `-c cmdStr` runs each top-level `;`-separated segment as
its own command; this minimal model splits on `;` (quoting and other
separators omitted), enough to witness which programs a permitted string can
reach. -/
def shSimpleCommands (cmdStr : List Char) : List (List Char) :=
  (splitOnChar ';' cmdStr).map goTrimSpace

/-- The conventional-commit types, in the order the source regexes list
them (none is a prefix of another, so alternation order is immaterial). -/
def commitTypes : List (List Char) :=
  ["build".toList, "chore".toList, "ci".toList, "docs".toList, "feat".toList,
   "fix".toList, "perf".toList, "refactor".toList, "revert".toList,
   "style".toList, "test".toList]

/-- One character of the regex scope class `[a-z0-9-]`. -/
def isScopeChar (c : Char) : Bool :=
  ('a' ≤ c && c ≤ 'z') || ('0' ≤ c && c ≤ '9') || c = '-'

/-- The regex tail `: .+` of the validator header pattern: a colon, a
space, and at least one further character that `.` can match (not a
newline). -/
def colonSpaceDesc (s : List Char) : Bool :=
  match s with
  | c1 :: c2 :: e :: _ => c1 = ':' && c2 = ' ' && e != '\n'
  | _ => false

/-- The regex tail `: ` of the repairer header pattern: just the colon and
space, nothing required after. -/
def colonSpaceOpen (s : List Char) : Bool :=
  match s with
  | c1 :: c2 :: _ => c1 = ':' && c2 = ' '
  | _ => false

/-- The regex fragment `(\([a-z0-9-]+\))?` followed by a given tail
pattern. The scope class excludes `)` and `:`, so the greedy `+` is exact
and the optional group can only match when a `(` is present. -/
def afterTypeRegion (tailPat : List Char → Bool) (r : List Char) : Bool :=
  match r with
  | [] => false
  | c :: r1 =>
    if c = '(' then
      match r1.dropWhile isScopeChar with
      | c2 :: r3 => !(r1.takeWhile isScopeChar).isEmpty && c2 = ')' && tailPat r3
      | [] => false
    else tailPat (c :: r1)

/-- Go `headerRe.MatchString`: the validator regex
`(type)(\([a-z0-9-]+\))?: .+` anchored at the start. -/
def headerReMatch (h : List Char) : Bool :=
  commitTypes.any (fun t => t.isPrefixOf h && afterTypeRegion colonSpaceDesc (h.drop t.length))

/-- Go `re.MatchString` in the repairer: the same pattern but ending at
`: ` with nothing required after. -/
def headerReOpen (h : List Char) : Bool :=
  commitTypes.any (fun t => t.isPrefixOf h && afterTypeRegion colonSpaceOpen (h.drop t.length))

/-- Go `cleanCommitMessage`: trim, strip one leading and one trailing
fence, trim again, then drop every line whose trimmed form is empty or a
lone fence, and rejoin. -/
def cleanCommitMessage (message : List Char) : List Char :=
  let m1 := goTrimSpace (goTrimSuffix (goTrimStart (goTrimSpace message) fence) fence)
  joinNl ((splitNl m1).filter
    (fun l => !(goTrimSpace l = fence) && !(goTrimSpace l).isEmpty))

/-- The header the validator inspects: the first line
(`strings.SplitN(m, "\n", 2)` part 0) trimmed of whitespace. -/
def headerOf (m : List Char) : List Char :=
  goTrimSpace (m.takeWhile (fun c => c != '\n'))

/-- Go `isValidCommitMessage` (validator used by `AICommit`): non-empty,
trimmed first line matches the header regex, its byte length is at most
72, and at least one byte follows the first `": "`. The capitalization and
body rewrites that follow in the source act on local copies only and
cannot change the returned boolean, so they are omitted here. -/
def isValidCommitMessage (m : List Char) : Bool :=
  if m.isEmpty then false
  else
    let header := headerOf m
    if !headerReMatch header then false
    else if 72 < goLen header then false
    else
      match idxColonSpace header with
      | none => false
      | some i => decide (i + 2 < goLen header)

/-- Repairer stage 1: trim the first line and strip one leading and one
trailing backtick. -/
def fixHeaderTicks (h : List Char) : List Char :=
  goTrimSuffix (goTrimStart (goTrimSpace h) tick) tick

/-- Repairer stage 2: truncate to 47 bytes plus an ellipsis when longer
than 50 bytes. -/
def fixHeaderTruncate (h : List Char) : List Char :=
  if 50 < goLen h && !h.isEmpty then takeBytes 47 h ++ "...".toList else h

/-- Repairer stage 3: when the header does not open with
`type(scope)?: `, rebuild it around the first colon (Go
`strings.Index(h, ":") > 0` means a colon exists and is not the first
byte), or prepend `fix: `. -/
def fixHeaderType (h : List Char) : List Char :=
  if headerReOpen h then h
  else
    let pre := h.takeWhile (fun c => c != ':')
    let post := h.dropWhile (fun c => c != ':')
    if !post.isEmpty && !pre.isEmpty then
      let descPart := goTrimSpace post.tail
      match commitTypes.find? (fun t => t.isPrefixOf (goTrimSpace pre)) with
      | some t => t ++ ": ".toList ++ descPart
      | none => "fix: ".toList ++ goTrimLeftCut h [':', ' ']
    else "fix: ".toList ++ h

/-- Repairer stage 4: trim, then — when a colon exists past the first
byte with at least one byte after it — re-insert a space after the colon
and uppercase the first byte that follows the colon. The source intends
to capitalize the first letter of the description, but the byte following
the colon is the separator space itself, so a space is uppercased and an
extra space is inserted. -/
def fixHeaderCapitalize (h : List Char) : List Char :=
  let h1 := goTrimSpace h
  let pre := h1.takeWhile (fun c => c != ':')
  if pre.isEmpty then h1
  else
    match h1.dropWhile (fun c => c != ':') with
    | _ :: a :: arest => pre ++ ':' :: ' ' :: charToUpper a :: arest
    | _ => h1

/-- Go `fixCommonCommitMessageIssues`: rebuild the first line through the
four stages and reattach the remaining lines unchanged. -/
def fixCommonCommitMessageIssues (message : List Char) : List Char :=
  if message.isEmpty then message
  else
    match splitNl message with
    | [] => message
    | l0 :: rest =>
      let header := fixHeaderCapitalize (fixHeaderType (fixHeaderTruncate (fixHeaderTicks l0)))
      match rest with
      | [] => header
      | _ => header ++ '\n' :: joinNl rest

/-- Maximum synthesis attempts of `AICommit`. -/
def maxAttempts : Nat := 3

/-- Error text `failed to generate commit message: ` prepended to a
transport error. -/
def errGenMsg : List Char := "failed to generate commit message: ".toList

/-- Error text carrying the last invalid candidate after all attempts. -/
def errAfterAttempts : List Char :=
  "failed to generate valid commit message after 3 attempts. Last attempt: ".toList

/-- The retry loop of `AICommit` (the git-precondition checks that precede
it in the source are external collaborator calls, spec section 4.5). The
oracle `ai` gives the `askAI` outcome of each attempt, numbered from 1;
the returned number counts the `askAI` calls made. The fuel argument
mirrors the bounded `for` loop and is unreachable at zero from the entry
point below. -/
def aiCommitAux (ai : Nat → AIResult) : Nat → Nat → Except (List Char) (List Char) × Nat
  | _, 0 => (.error "unexpected error in AICommit".toList, maxAttempts)
  | attempt, fuel + 1 =>
    match ai attempt with
    | .err e => (.error (errGenMsg ++ e), attempt)
    | .ok response =>
      let message := cleanCommitMessage response
      if isValidCommitMessage message then (.ok message, attempt)
      else if attempt = maxAttempts then
        let fixedMessage := fixCommonCommitMessageIssues message
        if isValidCommitMessage fixedMessage then (.ok fixedMessage, attempt)
        else (.error (errAfterAttempts ++ message), attempt)
      else aiCommitAux ai (attempt + 1) fuel

/-- The `AICommit` synthesis loop from attempt 1. -/
def aiCommitLoop (ai : Nat → AIResult) : Except (List Char) (List Char) × Nat :=
  aiCommitAux ai 1 maxAttempts

/-- Modelled from the spec: the observable commit-message output format of
spec section 6 — a single line matching the header grammar, optionally
followed by exactly one blank line and a body whose lines are each at most
72 characters. Stated for comparison with what `AICommit` returns. -/
def specObservableCommitShape (m : List Char) : Bool :=
  match splitNl m with
  | [h] => headerReMatch h
  | h :: [] :: rest => headerReMatch h && !rest.isEmpty &&
      rest.all (fun l => decide (goLen l ≤ 72))
  | _ => false

/-- An AI oracle that always fails; used where the oracle is never
consulted. -/
def aiNone : List Char → AIResult := fun _ => .err []

/-- A numbered oracle: invalid text on attempts before 3, a valid message
on attempt 3. -/
def aiThird : Nat → AIResult :=
  fun n => if n < 3 then .ok "garbage".toList else .ok "feat: Add login".toList

/-- A numbered oracle whose first response is already valid but carries a
body with no blank separator line. -/
def aiBody : Nat → AIResult :=
  fun _ => .ok "feat: Add login flag\nMore detail here".toList

/-! ### Helper lemmas -/

theorem toNat_ofNat_valid (k : Nat) (h : Nat.isValidChar k) : (Char.ofNat k).toNat = k := by
  unfold Char.ofNat
  rw [dif_pos h]
  rfl

theorem charToUpper_ne_nl {a : Char} (h : a ≠ '\n') : charToUpper a ≠ '\n' := by
  unfold charToUpper
  split
  · next hc =>
    simp only [Bool.and_eq_true, decide_eq_true_eq] at hc
    intro he
    have hv : Nat.isValidChar (a.toNat - 32) := Or.inl (by omega)
    have ht := congrArg Char.toNat he
    rw [toNat_ofNat_valid _ hv] at ht
    have hn : ('\n').toNat = 10 := rfl
    omega
  · exact h

theorem mem_goTrimSpace {c : Char} {s : List Char} (h : c ∈ goTrimSpace s) : c ∈ s := by
  unfold goTrimSpace at h
  rw [List.mem_reverse] at h
  have h1 := (List.dropWhile_sublist _).subset h
  rw [List.mem_reverse] at h1
  exact (List.dropWhile_sublist _).subset h1

theorem goTrimSpace_cons_ne_nil {c : Char} {l : List Char} (hc : goIsSpace c = false) :
    goTrimSpace (c :: l) ≠ [] := by
  unfold goTrimSpace
  intro h
  rw [List.reverse_eq_nil_iff, List.dropWhile_eq_nil_iff] at h
  have hd : (c :: l).dropWhile goIsSpace = c :: l := by
    rw [List.dropWhile_cons, if_neg (by simp [hc])]
  rw [hd] at h
  have := h c (by simp)
  simp [hc] at this

theorem goLen_cons (c : Char) (s : List Char) : goLen (c :: s) = c.utf8Size + goLen s := by
  simp [goLen]

theorem goLen_append (a b : List Char) : goLen (a ++ b) = goLen a + goLen b := by
  simp [goLen]

theorem splitOnChar_ne_nil (sep : Char) (s : List Char) : splitOnChar sep s ≠ [] := by
  induction s with
  | nil => simp [splitOnChar]
  | cons c rest ih =>
    unfold splitOnChar
    split
    · simp
    · split
      · simp
      · simp

theorem mem_splitOnChar_not_mem {sep : Char} {s l : List Char}
    (h : l ∈ splitOnChar sep s) : sep ∉ l := by
  induction s generalizing l with
  | nil =>
    simp only [splitOnChar, List.mem_singleton] at h
    subst h; simp
  | cons c rest ih =>
    by_cases hc : c = sep
    · subst hc
      simp only [splitOnChar, if_pos rfl] at h
      rcases List.mem_cons.mp h with h1 | h1
      · subst h1; simp
      · exact ih h1
    · rcases hsp : splitOnChar sep rest with _ | ⟨l0, ls⟩
      · exact absurd hsp (splitOnChar_ne_nil sep rest)
      · simp only [splitOnChar, if_neg hc, hsp] at h
        rcases List.mem_cons.mp h with h1 | h1
        · subst h1
          intro hm
          rcases List.mem_cons.mp hm with h2 | h2
          · exact hc h2.symm
          · exact ih (hsp ▸ List.mem_cons_self l0 ls) h2
        · exact ih (hsp ▸ List.mem_cons_of_mem l0 h1)

theorem splitOnChar_not_mem_self {sep : Char} {s : List Char} (h : sep ∉ s) :
    splitOnChar sep s = [s] := by
  induction s with
  | nil => rfl
  | cons c rest ih =>
    have hc : ¬ c = sep := fun e => h (by simp [e])
    have hr : sep ∉ rest := fun hm => h (List.mem_cons_of_mem _ hm)
    simp only [splitOnChar, if_neg hc, ih hr]

theorem splitOnChar_append_sep {sep : Char} {a : List Char} (h : sep ∉ a) (s : List Char) :
    splitOnChar sep (a ++ sep :: s) = a :: splitOnChar sep s := by
  induction a with
  | nil => simp [splitOnChar]
  | cons c a2 ih =>
    have hc : ¬ c = sep := fun e => h (by simp [e])
    have ha : sep ∉ a2 := fun hm => h (List.mem_cons_of_mem _ hm)
    simp only [List.cons_append, splitOnChar, if_neg hc, List.append_eq, ih ha]

theorem splitNl_joinNl {ls : List (List Char)} (hne : ls ≠ [])
    (h : ∀ l ∈ ls, '\n' ∉ l) : splitNl (joinNl ls) = ls := by
  induction ls with
  | nil => cases hne rfl
  | cons l ls2 ih =>
    cases ls2 with
    | nil => simpa [joinNl, splitNl] using splitOnChar_not_mem_self (h l (by simp))
    | cons l2 ls3 =>
      have he : joinNl (l :: l2 :: ls3) = l ++ '\n' :: joinNl (l2 :: ls3) := rfl
      rw [splitNl, he, splitOnChar_append_sep (h l (by simp))]
      have := ih (by simp) (fun x hx => h x (List.mem_cons_of_mem _ hx))
      rw [splitNl] at this
      rw [this]

theorem goFieldsAux_acc (s : List Char) : ∀ acc : List Char, acc ≠ [] →
    goFieldsAux s acc =
      (acc.reverse ++ s.takeWhile (fun c => !goIsSpace c)) ::
        goFieldsAux (s.dropWhile (fun c => !goIsSpace c)) [] := by
  induction s with
  | nil =>
    intro acc h
    simp [goFieldsAux, h]
  | cons c rest ih =>
    intro acc hacc
    by_cases hc : goIsSpace c
    · have h1 : goFieldsAux (c :: rest) acc = acc.reverse :: goFieldsAux rest [] := by
        simp [goFieldsAux, hc, hacc]
      have h2 : (c :: rest).takeWhile (fun c => !goIsSpace c) = [] := by
        simp [List.takeWhile_cons, hc]
      have h3 : (c :: rest).dropWhile (fun c => !goIsSpace c) = c :: rest := by
        simp [List.dropWhile_cons, hc]
      have h4 : goFieldsAux (c :: rest) [] = goFieldsAux rest [] := by
        simp [goFieldsAux, hc]
      rw [h1, h2, h3, h4]
      simp
    · have h1 : goFieldsAux (c :: rest) acc = goFieldsAux rest (c :: acc) := by
        simp [goFieldsAux, hc]
      have h2 : (c :: rest).takeWhile (fun c => !goIsSpace c) =
          c :: rest.takeWhile (fun c => !goIsSpace c) := by
        simp [List.takeWhile_cons, hc]
      have h3 : (c :: rest).dropWhile (fun c => !goIsSpace c) =
          rest.dropWhile (fun c => !goIsSpace c) := by
        simp [List.dropWhile_cons, hc]
      rw [h1, ih (c :: acc) (by simp), h2, h3]
      simp

theorem goFields_cases (s : List Char) :
    (goFields s = [] ∧ firstToken s = []) ∨
      (∃ ls, goFields s = firstToken s :: ls ∧ firstToken s ≠ []) := by
  induction s with
  | nil => exact Or.inl ⟨rfl, rfl⟩
  | cons c rest ih =>
    by_cases hc : goIsSpace c
    · have h1 : goFields (c :: rest) = goFields rest := by
        simp [goFields, goFieldsAux, hc]
      have h2 : firstToken (c :: rest) = firstToken rest := by
        simp [firstToken, List.dropWhile_cons, hc]
      rw [h1, h2]
      exact ih
    · refine Or.inr ?_
      have h1 : goFields (c :: rest) = goFieldsAux rest [c] := by
        simp [goFields, goFieldsAux, hc]
      have h2 : firstToken (c :: rest) = c :: rest.takeWhile (fun c => !goIsSpace c) := by
        simp [firstToken, List.dropWhile_cons, hc, List.takeWhile_cons]
      refine ⟨goFieldsAux (rest.dropWhile (fun c => !goIsSpace c)) [], ?_, ?_⟩
      · rw [h1, h2, goFieldsAux_acc rest [c] (by simp)]
        simp
      · rw [h2]
        simp

theorem idxColonSpace_append {p : List Char} (hp : ∀ c ∈ p, c ≠ ':') (s : List Char) :
    idxColonSpace (p ++ s) = (idxColonSpace s).map (fun i => goLen p + i) := by
  induction p with
  | nil =>
    cases h : idxColonSpace s <;> simp [goLen, h]
  | cons c p2 ih =>
    have hc : c ≠ ':' := hp c (by simp)
    have hp2 : ∀ x ∈ p2, x ≠ ':' := fun x hx => hp x (List.mem_cons_of_mem _ hx)
    simp only [List.cons_append, idxColonSpace, List.append_eq]
    rw [if_neg (by simp [hc]), ih hp2]
    cases h : idxColonSpace s
    · simp
    · simp [goLen_cons]
      omega

theorem idxColonSpace_start (d : List Char) : idxColonSpace (':' :: ' ' :: d) = some 0 := by
  simp [idxColonSpace]

theorem commitTypes_no_colon : ∀ t ∈ commitTypes, ∀ c ∈ t, c ≠ ':' := by decide

theorem commitTypes_no_nl : ∀ t ∈ commitTypes, '\n' ∉ t := by decide

theorem commitTypes_head : ∀ t ∈ commitTypes, t ≠ [] ∧ goIsSpace t.headI = false := by decide

theorem isScopeChar_ne_colon {c : Char} (h : isScopeChar c = true) : c ≠ ':' := by
  intro he; subst he; exact absurd h (by decide)

theorem colonSpaceDesc_iff (s : List Char) :
    colonSpaceDesc s = true ↔ ∃ e d, s = ':' :: ' ' :: e :: d ∧ e ≠ '\n' := by
  cases s with
  | nil => simp [colonSpaceDesc]
  | cons c1 s1 =>
    cases s1 with
    | nil => simp [colonSpaceDesc]
    | cons c2 s2 =>
      cases s2 with
      | nil => simp [colonSpaceDesc]
      | cons e s3 =>
        constructor
        · intro h
          simp only [colonSpaceDesc, Bool.and_eq_true, decide_eq_true_eq, bne_iff_ne] at h
          obtain ⟨⟨h1, h2⟩, h3⟩ := h
          subst h1; subst h2
          exact ⟨e, s3, rfl, h3⟩
        · rintro ⟨e2, d2, heq, hne⟩
          simp only [List.cons.injEq] at heq
          obtain ⟨rfl, rfl, rfl, rfl⟩ := heq
          simp [colonSpaceDesc, hne]

theorem headerReMatch_exists {h : List Char} (hm : headerReMatch h = true) :
    ∃ p e d, h = p ++ ':' :: ' ' :: e :: d ∧ (∀ c ∈ p, c ≠ ':') := by
  unfold headerReMatch at hm
  rw [List.any_eq_true] at hm
  obtain ⟨t, htmem, hb⟩ := hm
  rw [Bool.and_eq_true] at hb
  obtain ⟨hpre, hafter⟩ := hb
  obtain ⟨r, hr⟩ := List.isPrefixOf_iff_prefix.mp hpre
  have hdrop : h.drop t.length = r := by rw [← hr, List.drop_left]
  rw [hdrop] at hafter
  have htc : ∀ c ∈ t, c ≠ ':' := commitTypes_no_colon t htmem
  cases r with
  | nil => simp [afterTypeRegion] at hafter
  | cons c r1 =>
    by_cases hc : c = '('
    · subst hc
      simp only [afterTypeRegion, if_pos rfl] at hafter
      rcases hdw : r1.dropWhile isScopeChar with _ | ⟨c2, r3⟩
      · rw [hdw] at hafter; simp at hafter
      · rw [hdw] at hafter
        have hafter2 : (!(r1.takeWhile isScopeChar).isEmpty && decide (c2 = ')')
            && colonSpaceDesc r3) = true := hafter
        rw [Bool.and_eq_true, Bool.and_eq_true] at hafter2
        obtain ⟨⟨hsc, hc2⟩, hdesc⟩ := hafter2
        have hc2e : c2 = ')' := of_decide_eq_true hc2
        subst hc2e
        obtain ⟨e, d, hr3, hne⟩ := (colonSpaceDesc_iff r3).mp hdesc
        subst hr3
        have hsplit : r1 = r1.takeWhile isScopeChar ++ (')' :: ':' :: ' ' :: e :: d) := by
          have h0 : r1.takeWhile isScopeChar ++ r1.dropWhile isScopeChar = r1 := by simp
          rw [hdw] at h0
          exact h0.symm
        refine ⟨t ++ '(' :: (r1.takeWhile isScopeChar ++ [')']), e, d, ?_, ?_⟩
        · rw [← hr]
          conv_lhs => rw [hsplit]
          simp
        · intro x hx
          simp only [List.mem_append, List.mem_cons] at hx
          rcases hx with hx | hx | hx | hx | hx
          · exact htc x hx
          · subst hx; decide
          · exact isScopeChar_ne_colon (List.mem_takeWhile_imp hx)
          · subst hx; decide
          · exact absurd hx (List.not_mem_nil x)
    · simp only [afterTypeRegion, if_neg hc] at hafter
      obtain ⟨e, d, heq, hne⟩ := (colonSpaceDesc_iff _).mp hafter
      refine ⟨t, e, d, ?_, htc⟩
      rw [← hr, heq]

theorem headerReMatch_idx {h : List Char} (hm : headerReMatch h = true) :
    ∃ i, idxColonSpace h = some i ∧ i + 2 < goLen h := by
  obtain ⟨p, e, d, rfl, hp⟩ := headerReMatch_exists hm
  refine ⟨goLen p, ?_, ?_⟩
  · rw [idxColonSpace_append hp, idxColonSpace_start]
    simp
  · rw [goLen_append]
    have h1 : 1 ≤ e.utf8Size := Char.utf8Size_pos e
    have h2 : (':').utf8Size = 1 := rfl
    have h3 : (' ').utf8Size = 1 := rfl
    simp [goLen_cons]
    omega

theorem isValidCommitMessage_ne_nil {m : List Char} (h : isValidCommitMessage m = true) :
    m ≠ [] := by
  intro he; subst he; exact absurd h (by decide)

theorem not_nl_goTrimSpace {s : List Char} (h : '\n' ∉ s) : '\n' ∉ goTrimSpace s :=
  fun hm => h (mem_goTrimSpace hm)

theorem not_nl_goTrimStart {s pat : List Char} (h : '\n' ∉ s) : '\n' ∉ goTrimStart s pat := by
  unfold goTrimStart
  split
  · exact fun hm => h ((List.drop_sublist _ _).subset hm)
  · exact h

theorem not_nl_goTrimSuffix {s pat : List Char} (h : '\n' ∉ s) : '\n' ∉ goTrimSuffix s pat := by
  unfold goTrimSuffix
  split
  · exact fun hm => h ((List.take_sublist _ _).subset hm)
  · exact h

theorem not_nl_goTrimLeftCut {s cutset : List Char} (h : '\n' ∉ s) :
    '\n' ∉ goTrimLeftCut s cutset :=
  fun hm => h ((List.dropWhile_sublist _).subset hm)

theorem mem_takeBytes {c : Char} {n : Nat} {s : List Char} (h : c ∈ takeBytes n s) : c ∈ s := by
  induction s generalizing n with
  | nil => simp [takeBytes] at h
  | cons d rest ih =>
    unfold takeBytes at h
    split at h
    · rcases List.mem_cons.mp h with h1 | h1
      · simp [h1]
      · exact List.mem_cons_of_mem _ (ih h1)
    · simp at h

theorem not_nl_fixHeaderTicks {s : List Char} (h : '\n' ∉ s) : '\n' ∉ fixHeaderTicks s :=
  not_nl_goTrimSuffix (not_nl_goTrimStart (not_nl_goTrimSpace h))

theorem not_nl_fixHeaderTruncate {s : List Char} (h : '\n' ∉ s) : '\n' ∉ fixHeaderTruncate s := by
  unfold fixHeaderTruncate
  split
  · intro hm
    rcases List.mem_append.mp hm with h1 | h1
    · exact h (mem_takeBytes h1)
    · exact absurd h1 (by decide)
  · exact h

theorem not_nl_fixHeaderType {s : List Char} (h : '\n' ∉ s) : '\n' ∉ fixHeaderType s := by
  have hpre : '\n' ∉ s.takeWhile (fun c => c != ':') :=
    fun hm => h ((List.takeWhile_sublist _).subset hm)
  have hpost : '\n' ∉ s.dropWhile (fun c => c != ':') :=
    fun hm => h ((List.dropWhile_sublist _).subset hm)
  simp only [fixHeaderType]
  split
  · exact h
  · split
    · split
      · next t hf =>
        intro hm
        rcases List.mem_append.mp hm with h1 | h1
        · rcases List.mem_append.mp h1 with h2 | h2
          · exact commitTypes_no_nl t (List.mem_of_find?_eq_some hf) h2
          · exact absurd h2 (by decide)
        · exact not_nl_goTrimSpace
            (fun hm2 => hpost ((List.tail_sublist _).subset hm2)) h1
      · intro hm
        rcases List.mem_append.mp hm with h1 | h1
        · exact absurd h1 (by decide)
        · exact not_nl_goTrimLeftCut h h1
    · intro hm
      rcases List.mem_append.mp hm with h1 | h1
      · exact absurd h1 (by decide)
      · exact h h1

theorem not_nl_fixHeaderCapitalize {s : List Char} (h : '\n' ∉ s) :
    '\n' ∉ fixHeaderCapitalize s := by
  have h1 : '\n' ∉ goTrimSpace s := not_nl_goTrimSpace h
  have hpre : '\n' ∉ (goTrimSpace s).takeWhile (fun c => c != ':') :=
    fun hm => h1 ((List.takeWhile_sublist _).subset hm)
  have hpost : '\n' ∉ (goTrimSpace s).dropWhile (fun c => c != ':') :=
    fun hm => h1 ((List.dropWhile_sublist _).subset hm)
  simp only [fixHeaderCapitalize]
  split
  · exact h1
  · split
    · next c0 a arest heq =>
      intro hm
      have hmem : ∀ x ∈ (goTrimSpace s).dropWhile (fun c => c != ':'), x ≠ '\n' :=
        fun x hx he => hpost (he ▸ hx)
      rcases List.mem_append.mp hm with h2 | h2
      · exact hpre h2
      · rcases List.mem_cons.mp h2 with h3 | h3
        · exact absurd h3.symm (by decide)
        · rcases List.mem_cons.mp h3 with h4 | h4
          · exact absurd h4.symm (by decide)
          · rcases List.mem_cons.mp h4 with h5 | h5
            · exact charToUpper_ne_nl
                (fun he => hmem a (by rw [heq]; simp) ((congrArg id he))) h5.symm
            · exact hmem _ (by rw [heq]; simp [h5]) rfl
    · exact h1

theorem headerReOpen_head_nonspace {x : List Char} (hx : headerReOpen x = true) :
    ∃ c l, x = c :: l ∧ goIsSpace c = false := by
  unfold headerReOpen at hx
  rw [List.any_eq_true] at hx
  obtain ⟨t, htmem, hb⟩ := hx
  rw [Bool.and_eq_true] at hb
  obtain ⟨r, hr⟩ := List.isPrefixOf_iff_prefix.mp hb.1
  obtain ⟨hne, hhead⟩ := commitTypes_head t htmem
  cases t with
  | nil => exact absurd rfl hne
  | cons c l => exact ⟨c, l ++ r, by rw [← hr]; simp, by simpa using hhead⟩

theorem fixHeaderType_trim_ne_nil (x : List Char) : goTrimSpace (fixHeaderType x) ≠ [] := by
  simp only [fixHeaderType]
  split
  · next ho =>
    obtain ⟨c, l, hxe, hc⟩ := headerReOpen_head_nonspace ho
    rw [hxe]
    exact goTrimSpace_cons_ne_nil hc
  · split
    · split
      · next t hf =>
        obtain ⟨hne, hhead⟩ := commitTypes_head t (List.mem_of_find?_eq_some hf)
        cases t with
        | nil => exact absurd rfl hne
        | cons c l =>
          have he : ((c :: l) ++ ": ".toList) ++
              goTrimSpace ((x.dropWhile (fun c => c != ':')).tail) =
              c :: ((l ++ ": ".toList) ++
                goTrimSpace ((x.dropWhile (fun c => c != ':')).tail)) := by simp
          rw [he]
          exact goTrimSpace_cons_ne_nil (by simpa using hhead)
      · have he : "fix: ".toList ++ goTrimLeftCut x [':', ' '] =
            'f' :: ("ix: ".toList ++ goTrimLeftCut x [':', ' ']) := rfl
        rw [he]
        exact goTrimSpace_cons_ne_nil (by decide)
    · have he : "fix: ".toList ++ x = 'f' :: ("ix: ".toList ++ x) := rfl
      rw [he]
      exact goTrimSpace_cons_ne_nil (by decide)

theorem fixHeaderCapitalize_ne_nil {y : List Char} (hy : goTrimSpace y ≠ []) :
    fixHeaderCapitalize y ≠ [] := by
  simp only [fixHeaderCapitalize]
  split
  · exact hy
  · split
    · simp
    · exact hy

theorem joinNl_lines (ls : List (List Char)) (hnl : ∀ l ∈ ls, '\n' ∉ l)
    (htr : ∀ l ∈ ls, goTrimSpace l ≠ []) (hne : joinNl ls ≠ []) :
    ∀ l ∈ splitNl (joinNl ls), goTrimSpace l ≠ [] ∧ '\n' ∉ l := by
  have hlsne : ls ≠ [] := fun h0 => hne (by rw [h0]; rfl)
  rw [splitNl_joinNl hlsne hnl]
  exact fun l hl => ⟨htr l hl, hnl l hl⟩

theorem cleanCommitMessage_lines {r : List Char} (hne : cleanCommitMessage r ≠ []) :
    ∀ l ∈ splitNl (cleanCommitMessage r), goTrimSpace l ≠ [] ∧ '\n' ∉ l := by
  refine joinNl_lines ((splitNl (goTrimSpace (goTrimSuffix (goTrimStart
      (goTrimSpace r) fence) fence))).filter
      (fun l => !(goTrimSpace l = fence) && !(goTrimSpace l).isEmpty)) ?_ ?_ ?_
  · intro l hl
    exact mem_splitOnChar_not_mem (List.mem_filter.mp hl).1
  · intro l hl
    have h2 := (List.mem_filter.mp hl).2
    rw [Bool.and_eq_true] at h2
    have h3 := h2.2
    simp only [Bool.not_eq_true', List.isEmpty_eq_false] at h3
    exact h3
  · exact hne

theorem fix_eq_single {c0 : Char} {m0 l0 : List Char}
    (hsp : splitNl (c0 :: m0) = [l0]) :
    fixCommonCommitMessageIssues (c0 :: m0) =
      fixHeaderCapitalize (fixHeaderType (fixHeaderTruncate (fixHeaderTicks l0))) := by
  have he : fixCommonCommitMessageIssues (c0 :: m0) =
      (match splitNl (c0 :: m0) with
       | [] => (c0 :: m0)
       | a :: rest =>
         match rest with
         | [] => fixHeaderCapitalize (fixHeaderType (fixHeaderTruncate (fixHeaderTicks a)))
         | _ => fixHeaderCapitalize (fixHeaderType (fixHeaderTruncate (fixHeaderTicks a))) ++
             '\n' :: joinNl rest) := rfl
  rw [he, hsp]

theorem fix_eq_multi {c0 : Char} {m0 l0 r1 : List Char} {r2 : List (List Char)}
    (hsp : splitNl (c0 :: m0) = l0 :: r1 :: r2) :
    fixCommonCommitMessageIssues (c0 :: m0) =
      fixHeaderCapitalize (fixHeaderType (fixHeaderTruncate (fixHeaderTicks l0))) ++
        '\n' :: joinNl (r1 :: r2) := by
  have he : fixCommonCommitMessageIssues (c0 :: m0) =
      (match splitNl (c0 :: m0) with
       | [] => (c0 :: m0)
       | a :: rest =>
         match rest with
         | [] => fixHeaderCapitalize (fixHeaderType (fixHeaderTruncate (fixHeaderTicks a)))
         | _ => fixHeaderCapitalize (fixHeaderType (fixHeaderTruncate (fixHeaderTicks a))) ++
             '\n' :: joinNl rest) := rfl
  rw [he, hsp]

set_option maxHeartbeats 1000000 in
theorem fix_lines {msg : List Char} (hne : msg ≠ [])
    (hl : ∀ l ∈ splitNl msg, goTrimSpace l ≠ [] ∧ '\n' ∉ l) :
    ∀ l ∈ splitNl (fixCommonCommitMessageIssues msg), l ≠ [] := by
  cases msg with
  | nil => exact absurd rfl hne
  | cons c0 m0 =>
    rcases hsp : splitNl (c0 :: m0) with _ | ⟨l0, rest⟩
    · exact absurd hsp (splitOnChar_ne_nil _ _)
    · have hl0 := hl l0 (by rw [hsp]; simp)
      have hhnl : '\n' ∉
          fixHeaderCapitalize (fixHeaderType (fixHeaderTruncate (fixHeaderTicks l0))) :=
        not_nl_fixHeaderCapitalize (not_nl_fixHeaderType (not_nl_fixHeaderTruncate
          (not_nl_fixHeaderTicks hl0.2)))
      have hhne :
          fixHeaderCapitalize (fixHeaderType (fixHeaderTruncate (fixHeaderTicks l0))) ≠ [] :=
        fixHeaderCapitalize_ne_nil (fixHeaderType_trim_ne_nil _)
      cases rest with
      | nil =>
        rw [fix_eq_single hsp, splitNl, splitOnChar_not_mem_self hhnl]
        intro l hl2
        rw [List.mem_singleton] at hl2
        subst hl2
        exact hhne
      | cons r1 r2 =>
        rw [fix_eq_multi hsp, splitNl, splitOnChar_append_sep hhnl]
        have hrest : ∀ x ∈ r1 :: r2, '\n' ∉ x :=
          fun x hx => (hl x (by rw [hsp]; exact List.mem_cons_of_mem _ hx)).2
        have hjn := splitNl_joinNl (List.cons_ne_nil r1 r2) hrest
        rw [splitNl] at hjn
        rw [hjn]
        intro l hl2
        rcases List.mem_cons.mp hl2 with h1 | h1
        · subst h1
          exact hhne
        · have := (hl l (by rw [hsp]; exact List.mem_cons_of_mem _ h1)).1
          intro h0
          subst h0
          exact this rfl

theorem aiCommitAux_succ (ai : Nat → AIResult) (attempt fuel : Nat) :
    aiCommitAux ai attempt (fuel + 1) =
      match ai attempt with
      | .err e => (.error (errGenMsg ++ e), attempt)
      | .ok response =>
        if isValidCommitMessage (cleanCommitMessage response) then
          (.ok (cleanCommitMessage response), attempt)
        else if attempt = maxAttempts then
          if isValidCommitMessage (fixCommonCommitMessageIssues (cleanCommitMessage response)) then
            (.ok (fixCommonCommitMessageIssues (cleanCommitMessage response)), attempt)
          else (.error (errAfterAttempts ++ cleanCommitMessage response), attempt)
        else aiCommitAux ai (attempt + 1) fuel := rfl

theorem aiCommitAux_err {ai : Nat → AIResult} {attempt fuel : Nat} {e : List Char}
    (hai : ai attempt = .err e) :
    aiCommitAux ai attempt (fuel + 1) = (.error (errGenMsg ++ e), attempt) := by
  rw [aiCommitAux_succ, hai]

theorem aiCommitAux_ok_valid {ai : Nat → AIResult} {attempt fuel : Nat} {r : List Char}
    (hai : ai attempt = .ok r) (hv : isValidCommitMessage (cleanCommitMessage r) = true) :
    aiCommitAux ai attempt (fuel + 1) = (.ok (cleanCommitMessage r), attempt) := by
  rw [aiCommitAux_succ, hai]
  simp [hv]

theorem aiCommitAux_ok_invalid_next {ai : Nat → AIResult} {attempt fuel : Nat} {r : List Char}
    (hai : ai attempt = .ok r) (hv : isValidCommitMessage (cleanCommitMessage r) = false)
    (hne : attempt ≠ maxAttempts) :
    aiCommitAux ai attempt (fuel + 1) = aiCommitAux ai (attempt + 1) fuel := by
  rw [aiCommitAux_succ, hai]
  simp [hv, hne]

theorem aiCommitAux_last_fixok {ai : Nat → AIResult} {fuel : Nat} {r : List Char}
    (hai : ai maxAttempts = .ok r)
    (hv : isValidCommitMessage (cleanCommitMessage r) = false)
    (hf : isValidCommitMessage (fixCommonCommitMessageIssues (cleanCommitMessage r)) = true) :
    aiCommitAux ai maxAttempts (fuel + 1) =
      (.ok (fixCommonCommitMessageIssues (cleanCommitMessage r)), maxAttempts) := by
  rw [aiCommitAux_succ, hai]
  simp [hv, hf]

theorem aiCommitAux_last_fixbad {ai : Nat → AIResult} {fuel : Nat} {r : List Char}
    (hai : ai maxAttempts = .ok r)
    (hv : isValidCommitMessage (cleanCommitMessage r) = false)
    (hf : isValidCommitMessage (fixCommonCommitMessageIssues (cleanCommitMessage r)) = false) :
    aiCommitAux ai maxAttempts (fuel + 1) =
      (.error (errAfterAttempts ++ cleanCommitMessage r), maxAttempts) := by
  rw [aiCommitAux_succ, hai]
  simp [hv, hf]

theorem aiCommitAux_ok_lines (ai : Nat → AIResult) :
    ∀ fuel attempt m n, aiCommitAux ai attempt fuel = (.ok m, n) →
      isValidCommitMessage m = true ∧ ∀ l ∈ splitNl m, l ≠ [] := by
  intro fuel
  induction fuel with
  | zero =>
    intro attempt m n h
    exact absurd h (by simp [aiCommitAux])
  | succ fuel ih =>
    intro attempt m n h
    cases hai : ai attempt with
    | err e =>
      rw [aiCommitAux_err hai] at h
      exact absurd h (by simp)
    | ok r =>
      by_cases hv : isValidCommitMessage (cleanCommitMessage r) = true
      · rw [aiCommitAux_ok_valid hai hv] at h
        simp only [Prod.mk.injEq, Except.ok.injEq] at h
        obtain ⟨hm, hn⟩ := h
        subst hm
        refine ⟨hv, fun l hl h0 => ?_⟩
        have hlines := cleanCommitMessage_lines (isValidCommitMessage_ne_nil hv)
        exact (hlines l hl).1 (by rw [h0]; rfl)
      · rw [Bool.not_eq_true] at hv
        by_cases ha : attempt = maxAttempts
        · subst ha
          by_cases hf : isValidCommitMessage
              (fixCommonCommitMessageIssues (cleanCommitMessage r)) = true
          · rw [aiCommitAux_last_fixok hai hv hf] at h
            simp only [Prod.mk.injEq, Except.ok.injEq] at h
            obtain ⟨hm, hn⟩ := h
            subst hm
            refine ⟨hf, ?_⟩
            by_cases hmsg : cleanCommitMessage r = []
            · rw [hmsg] at hf
              exact absurd hf (by decide)
            · exact fix_lines hmsg (cleanCommitMessage_lines hmsg)
          · rw [Bool.not_eq_true] at hf
            rw [aiCommitAux_last_fixbad hai hv hf] at h
            exact absurd h (by simp)
        · rw [aiCommitAux_ok_invalid_next hai hv ha] at h
          exact ih (attempt + 1) m n h

theorem gateAndExecute_mem {c c2 : List Char} (h : Effect.execute c ∈ gateAndExecute c2) :
    isValidCommand c = true := by
  unfold gateAndExecute at h
  split at h
  · next hv =>
    rw [List.mem_singleton] at h
    injection h with he
    subst he
    exact hv
  · rw [List.mem_singleton] at h
    exact absurd h (by simp)

theorem shellStep_gated (ai : List Char → AIResult) (input c : List Char)
    (h : Effect.execute c ∈ (shellStep ai input).effects) : isValidCommand c = true := by
  simp only [shellStep] at h
  split at h
  · simp at h
  · rcases hf : goFields (goTrimSpace input) with _ | ⟨p, rest⟩ <;> simp only [hf] at h
    · simp at h
    · repeat' split at h
      all_goals first
        | exact gateAndExecute_mem h
        | simp at h

/-! ### Claim theorems -/

/-- C1 counterexample: the non-interactive root command executes a
`!`-prefixed command that the allowlist rejects — `rootRun` on the single
argument `!rm -rf /` invokes the executor on `rm -rf /` even though
`isValidCommand` returns false for it, so not every execution path is
gated by the allowlist. -/
theorem root_executes_unlisted :
    rootRun aiNone ["!rm -rf /".toList] = [Effect.execute "rm -rf /".toList] ∧
    isValidCommand "rm -rf /".toList = false := by decide

/-- C1 (amended): only the interactive shell gates execution. Every
`Effect.execute` a shell dispatch step can emit — on the `!` path and on
the AI `Command: ` directive path alike — carries a command accepted by
`isValidCommand` (rejection yields a safety error and no execution), while
the non-interactive root command runs both its `!`-prefixed argument and
an AI-suggested `Command: ` directive through the executor unconditionally,
never consulting `isValidCommand`. -/
theorem shell_gates_root_does_not :
    (∀ (ai : List Char → AIResult) (input c : List Char),
      Effect.execute c ∈ (shellStep ai input).effects → isValidCommand c = true) ∧
    (∀ (ai : List Char → AIResult) (a : List Char) (rest : List (List Char)),
      goStartsWith a bang = true →
      rootRun ai (a :: rest) = [Effect.execute (goTrimSpace (goTrimStart a bang))]) ∧
    (∀ (ai : List Char → AIResult) (a : List Char) (rest : List (List Char)) (r : List Char),
      goStartsWith a bang = false → ai (joinSpace (a :: rest)) = .ok r →
      goStartsWith r cmdSentinel = true →
      rootRun ai (a :: rest) = [Effect.execute (goTrimSpace (goTrimStart r cmdSentinel))]) := by
  refine ⟨shellStep_gated, ?_, ?_⟩
  · intro ai a rest hb
    simp [rootRun, hb]
  · intro ai a rest r hb hai hr
    simp [rootRun, hb, hai, hr]

/-- C1 witness: the shell gating applied to the concrete input `!ls -la`,
and the ungated root execution applied to `!rm -rf /`. -/
theorem shell_gates_root_does_not_witness :
    (Effect.execute "ls -la".toList ∈ (shellStep aiNone "!ls -la".toList).effects ∧
      isValidCommand "ls -la".toList = true) ∧
    rootRun aiNone ["!rm -rf /".toList] =
      [Effect.execute (goTrimSpace (goTrimStart "!rm -rf /".toList bang))] :=
  ⟨⟨by decide,
    shell_gates_root_does_not.1 aiNone "!ls -la".toList "ls -la".toList (by decide)⟩,
    shell_gates_root_does_not.2.1 aiNone "!rm -rf /".toList [] (by decide)⟩

/-- C2: `isValidCommand` accepts a command string exactly when its first
whitespace token is non-empty and equals (case-sensitively) one of the
thirteen allowlisted program names; the empty string and whitespace-only
strings are rejected. -/
theorem isValidCommand_iff_first_token :
    (∀ cmd : List Char, isValidCommand cmd = true ↔
      firstToken cmd ≠ [] ∧ firstToken cmd ∈ allowedCommands) ∧
    isValidCommand "".toList = false ∧ isValidCommand "   ".toList = false := by
  refine ⟨?_, by decide, by decide⟩
  intro cmd
  rcases goFields_cases cmd with ⟨hf, ht⟩ | ⟨ls, hf, ht⟩
  · simp [isValidCommand, hf, ht]
  · simp only [isValidCommand, hf]
    rw [List.any_eq_true]
    constructor
    · rintro ⟨a, ha, he⟩
      rw [decide_eq_true_eq] at he
      exact ⟨ht, he ▸ ha⟩
    · rintro ⟨_, hmem⟩
      exact ⟨firstToken cmd, hmem, by simp⟩

/-- C3: the commit synthesis loop makes at most 3 `askAI` calls. If the
cleaned response of attempt `n` validates while every earlier attempt
returned ok-but-invalid text, the loop returns that message after exactly
`n` calls. If all 3 attempts yield invalid messages, the repairer is
applied once to the last candidate: a now-valid repaired message is
returned after 3 calls, otherwise a terminal error whose text carries the
last invalid candidate. An `askAI` error at any attempt propagates
immediately after that call. -/
theorem aiCommitLoop_spec (ai : Nat → AIResult) :
    (∀ n r, 1 ≤ n → n ≤ maxAttempts →
      (∀ m, 1 ≤ m → m < n →
        ∃ s, ai m = .ok s ∧ isValidCommitMessage (cleanCommitMessage s) = false) →
      ai n = .ok r → isValidCommitMessage (cleanCommitMessage r) = true →
      aiCommitLoop ai = (.ok (cleanCommitMessage r), n)) ∧
    (∀ r, (∀ m, 1 ≤ m → m < maxAttempts →
        ∃ s, ai m = .ok s ∧ isValidCommitMessage (cleanCommitMessage s) = false) →
      ai maxAttempts = .ok r → isValidCommitMessage (cleanCommitMessage r) = false →
      (isValidCommitMessage (fixCommonCommitMessageIssues (cleanCommitMessage r)) = true →
        aiCommitLoop ai =
          (.ok (fixCommonCommitMessageIssues (cleanCommitMessage r)), maxAttempts)) ∧
      (isValidCommitMessage (fixCommonCommitMessageIssues (cleanCommitMessage r)) = false →
        aiCommitLoop ai = (.error (errAfterAttempts ++ cleanCommitMessage r), maxAttempts))) ∧
    (∀ n e, 1 ≤ n → n ≤ maxAttempts →
      (∀ m, 1 ≤ m → m < n →
        ∃ s, ai m = .ok s ∧ isValidCommitMessage (cleanCommitMessage s) = false) →
      ai n = .err e → aiCommitLoop ai = (.error (errGenMsg ++ e), n)) := by
  refine ⟨?_, ?_, ?_⟩
  · intro n r h1 h3 hprev hai hv
    have h3n : n ≤ 3 := h3
    interval_cases n
    · exact aiCommitAux_ok_valid hai hv
    · obtain ⟨s1, ha1, hv1⟩ := hprev 1 (by norm_num) (by norm_num)
      exact (aiCommitAux_ok_invalid_next ha1 hv1 (by decide)).trans
        (aiCommitAux_ok_valid hai hv)
    · obtain ⟨s1, ha1, hv1⟩ := hprev 1 (by norm_num) (by norm_num)
      obtain ⟨s2, ha2, hv2⟩ := hprev 2 (by norm_num) (by norm_num)
      exact ((aiCommitAux_ok_invalid_next ha1 hv1 (by decide)).trans
        (aiCommitAux_ok_invalid_next ha2 hv2 (by decide))).trans
        (aiCommitAux_ok_valid hai hv)
  · intro r hprev hai hv
    obtain ⟨s1, ha1, hv1⟩ := hprev 1 (by norm_num) (by decide)
    obtain ⟨s2, ha2, hv2⟩ := hprev 2 (by norm_num) (by decide)
    have estep : aiCommitLoop ai = aiCommitAux ai 3 1 :=
      (aiCommitAux_ok_invalid_next ha1 hv1 (by decide)).trans
        (aiCommitAux_ok_invalid_next ha2 hv2 (by decide))
    constructor
    · intro hf
      exact estep.trans (aiCommitAux_last_fixok hai hv hf)
    · intro hf
      exact estep.trans (aiCommitAux_last_fixbad hai hv hf)
  · intro n e h1 h3 hprev hai
    have h3n : n ≤ 3 := h3
    interval_cases n
    · exact aiCommitAux_err hai
    · obtain ⟨s1, ha1, hv1⟩ := hprev 1 (by norm_num) (by norm_num)
      exact (aiCommitAux_ok_invalid_next ha1 hv1 (by decide)).trans (aiCommitAux_err hai)
    · obtain ⟨s1, ha1, hv1⟩ := hprev 1 (by norm_num) (by norm_num)
      obtain ⟨s2, ha2, hv2⟩ := hprev 2 (by norm_num) (by norm_num)
      exact ((aiCommitAux_ok_invalid_next ha1 hv1 (by decide)).trans
        (aiCommitAux_ok_invalid_next ha2 hv2 (by decide))).trans (aiCommitAux_err hai)

/-- C3 witness: an oracle that is ok-but-invalid on attempts 1 and 2 and
valid on attempt 3 makes the loop return after exactly 3 calls with the
attempt-3 message. -/
theorem aiCommitLoop_spec_witness :
    aiCommitLoop aiThird = (.ok (cleanCommitMessage "feat: Add login".toList), 3) :=
  (aiCommitLoop_spec aiThird).1 3 "feat: Add login".toList (by decide) (by decide)
    (fun m hm1 hm2 => ⟨"garbage".toList,
      by have hm : m < 3 := hm2; simp [aiThird, hm], by decide⟩)
    (by decide) (by decide)

/-- C4 counterexample: the validator accepts a message whose raw first
line does not match the anchored header grammar — leading whitespace is
trimmed away before the regex runs, so the claimed iff over the literal
first line fails at this input. -/
theorem isValidCommitMessage_untrimmed_counterexample :
    isValidCommitMessage " feat: Add login flag".toList = true ∧
    headerReMatch (" feat: Add login flag".toList.takeWhile (fun c => c != '\n')) = false := by
  decide

/-- C4 (amended): `isValidCommitMessage` returns true exactly when the
message is non-empty, its first line AFTER TRIMMING surrounding whitespace
matches the header grammar `type(scope)?: description` with a non-empty
description, and that trimmed header is at most 72 bytes long; in
particular the scoped example validates and the unprefixed sentence does
not. The secondary checks the source performs on the position of `": "`
are implied by the grammar match. -/
theorem isValidCommitMessage_iff :
    (∀ m : List Char, isValidCommitMessage m = true ↔
      m ≠ [] ∧ headerReMatch (headerOf m) = true ∧ goLen (headerOf m) ≤ 72) ∧
    isValidCommitMessage "feat(cli): Add login flag".toList = true ∧
    isValidCommitMessage "added login flag".toList = false := by
  refine ⟨?_, by decide, by decide⟩
  intro m
  constructor
  · intro h
    simp only [isValidCommitMessage] at h
    by_cases h0 : m.isEmpty
    · rw [if_pos h0] at h
      exact absurd h (by simp)
    · rw [if_neg h0] at h
      refine ⟨fun he => h0 (by simp [he]), ?_⟩
      by_cases h1 : headerReMatch (headerOf m) = true
      · refine ⟨h1, ?_⟩
        rw [h1] at h
        simp only [Bool.not_true, Bool.false_eq_true, if_false] at h
        by_cases h2 : 72 < goLen (headerOf m)
        · rw [if_pos h2] at h
          exact absurd h (by simp)
        · omega
      · rw [Bool.not_eq_true] at h1
        rw [h1] at h
        exact absurd h (by simp)
  · rintro ⟨hne, hmatch, hlen⟩
    simp only [isValidCommitMessage]
    rw [if_neg (by simp [hne])]
    rw [hmatch]
    simp only [Bool.not_true, Bool.false_eq_true, if_false]
    rw [if_neg (by omega)]
    obtain ⟨i, hidx, hlt⟩ := headerReMatch_idx hmatch
    rw [hidx]
    simp [hlt]

/-- C5 counterexample: a response whose TRIMMED form starts with the
`Command: ` sentinel but whose raw form has a leading space is not turned
into a directive — the source checks the prefix on the untrimmed response
— so the claim fails at this input. -/
theorem interpret_trimmed_sentinel_counterexample :
    goStartsWith (goTrimSpace " Command: ls".toList) cmdSentinel = true ∧
    interpretResponse " Command: ls".toList = Intent.plainText " Command: ls".toList ∧
    interpretResponse " Command: ls".toList ≠ Intent.commandDirective "ls".toList := by
  decide

/-- C5 (amended): a raw response is interpreted as a `CommandDirective`
exactly when the response ITSELF (untrimmed) starts with the literal
prefix `Command: `; the directive command is the remainder after that
prefix, trimmed of surrounding whitespace. -/
theorem interpret_directive_iff :
    (∀ r : List Char, goStartsWith r cmdSentinel = true →
      interpretResponse r =
        Intent.commandDirective (goTrimSpace (goTrimStart r cmdSentinel))) ∧
    (∀ r c : List Char, goStartsWith r cmdSentinel = false →
      interpretResponse r ≠ Intent.commandDirective c) := by
  constructor
  · intro r h
    simp [interpretResponse, h]
  · intro r c h
    simp only [interpretResponse, h]
    rw [if_neg (by simp)]
    split <;> simp

/-- C5 witness: the iff applied at a concrete response carrying the
sentinel, yielding the trimmed remainder as the directive command. -/
theorem interpret_directive_witness :
    goStartsWith "Command:  ls -la ".toList cmdSentinel = true ∧
    interpretResponse "Command:  ls -la ".toList =
      Intent.commandDirective (goTrimSpace (goTrimStart "Command:  ls -la ".toList cmdSentinel)) ∧
    goTrimSpace (goTrimStart "Command:  ls -la ".toList cmdSentinel) = "ls -la".toList :=
  ⟨by decide, interpret_directive_iff.1 "Command:  ls -la ".toList (by decide), by decide⟩

/-- C6 counterexample: a successful `AICommit` run returns a message with
a body that follows the header directly, with no blank separator line —
`cleanCommitMessage` drops every blank line — so the returned string does
not have the bit-exact shape the spec describes. -/
theorem aiCommitLoop_violates_spec_shape :
    aiCommitLoop aiBody = (.ok "feat: Add login flag\nMore detail here".toList, 1) ∧
    specObservableCommitShape "feat: Add login flag\nMore detail here".toList = false :=
  ⟨rfl, by decide⟩

/-- C6 (amended): every message the synthesis loop returns successfully
passes the validator — its trimmed first line matches the header grammar
within 72 bytes — and contains no empty line at all: a body, when present,
follows the header with no blank separator, and its line lengths are not
bounded by the code. -/
theorem aiCommitLoop_ok_shape :
    ∀ (ai : Nat → AIResult) (m : List Char) (n : Nat),
      aiCommitLoop ai = (.ok m, n) →
      isValidCommitMessage m = true ∧ ∀ l ∈ splitNl m, l ≠ [] :=
  fun ai m n h => aiCommitAux_ok_lines ai maxAttempts 1 m n h

/-- C6 witness: the amended shape facts obtained by applying the theorem
to a concrete oracle whose first response validates. -/
theorem aiCommitLoop_ok_shape_witness :
    isValidCommitMessage "feat: Add login flag\nMore detail here".toList = true ∧
    ∀ l ∈ splitNl "feat: Add login flag\nMore detail here".toList, l ≠ [] :=
  aiCommitLoop_ok_shape aiBody "feat: Add login flag\nMore detail here".toList 1 rfl

/-- C7 counterexample: the repairer is not idempotent — applying it twice
to `added login flag` yields a different string than applying it once,
because each pass re-inserts a space after the header colon. -/
theorem fix_not_idempotent :
    fixCommonCommitMessageIssues (fixCommonCommitMessageIssues "added login flag".toList) ≠
      fixCommonCommitMessageIssues "added login flag".toList := by decide

/-- C7 (amended): the repairer is not idempotent. Its capitalization step
inserts a space after the colon and uppercases the byte right after the
colon (the separator space), so each application grows the gap: one pass
on `added login flag` gives `fix:  added login flag` (two spaces), and a
second pass gives `fix:   added login flag` (three spaces). -/
theorem fix_double_apply :
    fixCommonCommitMessageIssues "added login flag".toList =
      "fix:  added login flag".toList ∧
    fixCommonCommitMessageIssues "fix:  added login flag".toList =
      "fix:   added login flag".toList := by decide

/-- C8: evaluating the repairer at the failing input `added login flag`
shows the code bug — the comment in the source says the first letter after
the type is capitalized, and the spec expects `fix: Added login flag`, but
the code uppercases the separator space and inserts another one, returning
`fix:  added login flag` (two spaces, lowercase description). That output
still validates. -/
theorem fix_added_login_flag_eval :
    fixCommonCommitMessageIssues "added login flag".toList =
      "fix:  added login flag".toList ∧
    "fix:  added login flag".toList ≠ "fix: Added login flag".toList ∧
    isValidCommitMessage "fix:  added login flag".toList = true := by decide

/-- C9: evaluating the session model at the failing input shows the code
bug — a session whose only line is `exit` appends that line to the
in-memory history, but the exit built-in reaches `os.Exit(0)`, which
terminates the process without running the deferred `saveHistory`, so the
history is never flushed; a session that instead ends when input is
exhausted does flush. -/
theorem exit_skips_history_flush :
    runShell aiNone ["exit".toList] = ⟨["exit".toList], false⟩ ∧
    runShell aiNone ["help".toList] = ⟨["help".toList], true⟩ := by decide

/-- C10: the allowlist inspects only the first whitespace token while the
executor hands the whole string to `sh -c`; the string `echo hi; rm -rf /`
passes `isValidCommand`, reaches the shell intact inside the argument
vector, and the shell then runs `rm -rf /` — whose own first token fails
the allowlist — as a separate command. -/
theorem allowlist_first_token_bypass :
    isValidCommand "echo hi; rm -rf /".toList = true ∧
    executeCommandArgv false "echo hi; rm -rf /".toList =
      ["sh".toList, "-c".toList, "echo hi; rm -rf /".toList] ∧
    "rm -rf /".toList ∈ shSimpleCommands "echo hi; rm -rf /".toList ∧
    isValidCommand "rm -rf /".toList = false := by decide
